import Mathlib

/-
Verification of the BigInt base component (src/math/bigint/bigint.cpp).

The development shallowly embeds the BigInt value type: the register of
machine words becomes a list of naturals (each limb is kept below 2^32 by
the machine word type, which appears here as an explicit hypothesis where
needed), the sign tag becomes a two-valued inductive, and each member
function of the source file becomes a Lean function translated line by
line.  This build models a 32-bit word (MP_WORD_BITS = 32, sizeof(word)
= 4), matching the concrete 4-byte-word scenarios of the design document.

Helpers that live outside the provided source file (the bigint.h inline
accessors, the mp_core comparison kernel, the digit decoder, get_byte and
round_up) are modelled from the specification; each such definition says
so in its doc comment.
-/

namespace Botan

/-- Number of bits in a machine word for this build (MP_WORD_BITS). -/
def MP_WORD_BITS : Nat := 32

/-- Number of bytes in a machine word (sizeof(word)). -/
def WORD_BYTES : Nat := 4

/-- All-ones word mask (MP_WORD_MASK). -/
def MP_WORD_MASK : Nat := 2 ^ 32 - 1

/-- The sign tag of a BigInt. -/
inductive Sign where
  | Negative
  | Positive
deriving DecidableEq, Repr

/-- Encoding bases (BigInt::Base). -/
inductive Base where
  | Octal
  | Decimal
  | Hexadecimal
  | Binary
deriving DecidableEq, Repr

/-- The BigInt value: a little-endian register of words plus a sign tag.
In the source the register entries have the machine word type, so each is
below 2 to the 32; here that bound is an explicit hypothesis when used. -/
structure BigInt where
  reg : List Nat
  signedness : Sign
deriving DecidableEq, Repr

/-- Modelled from the spec: round_up from rounding.h; rounds n up to the
next multiple of align (n itself when already a multiple). -/
def roundUp (n align : Nat) : Nat :=
  if n % align = 0 then n else n + (align - n % align)

/-- Modelled from the spec: resizing of the register storage; the kept
prefix is preserved and any new limbs are zero-initialized. -/
def listResize (l : List Nat) (n : Nat) : List Nat :=
  l.take n ++ List.replicate (n - l.length) 0

/-- Magnitude of a little-endian word list: the base 2^32 value. -/
def natOf : List Nat → Nat
  | [] => 0
  | w :: ws => w + 2 ^ 32 * natOf ws

/-- Allocated limb count of the register (BigInt::size). -/
def size (b : BigInt) : Nat := b.reg.length

/-- Modelled from the spec: word_at from bigint.h returns limb n, or 0
when n is at or beyond the allocated capacity. -/
def word_at (b : BigInt) (n : Nat) : Nat := b.reg.getD n 0

/-- Modelled from the spec: the significant-word scan of bigint.h, which
walks down from limb s - 1 past trailing zero limbs. -/
def sigWordsFrom (l : List Nat) : Nat → Nat
  | 0 => 0
  | s + 1 => if l.getD s 0 = 0 then sigWordsFrom l s else s + 1

/-- Modelled from the spec: sig_words counts the limbs that remain after
trimming trailing (most-significant) zero limbs. -/
def sig_words (b : BigInt) : Nat := sigWordsFrom b.reg b.reg.length

/-- Modelled from the spec: is_zero holds when there are no significant
words. -/
def is_zero (b : BigInt) : Bool := sig_words b == 0

/-- Modelled from the spec: the sign accessor is_negative. -/
def is_negative (b : BigInt) : Bool := decide (b.signedness = Sign.Negative)

/-- Modelled from the spec: the sign accessor is_positive. -/
def is_positive (b : BigInt) : Bool := decide (b.signedness = Sign.Positive)

/-- The magnitude of a BigInt: the base 2^32 value of its register. -/
def magnitude (b : BigInt) : Nat := natOf b.reg

/-- Modelled from the spec: clear resets the value to canonical zero
(zero magnitude, sign Positive), keeping the allocated capacity. -/
def clear (b : BigInt) : BigInt :=
  { reg := List.replicate b.reg.length 0, signedness := Sign.Positive }

/-- BigInt::set_sign (bigint.cpp lines 291-297): a zero value is forced
Positive, otherwise the requested sign is stored. -/
def set_sign (b : BigInt) (s : Sign) : BigInt :=
  if is_zero b then { b with signedness := Sign.Positive }
  else { b with signedness := s }

/-- BigInt::reverse_sign (lines 310-315): the opposite of the current
sign, without mutation. -/
def reverse_sign (b : BigInt) : Sign :=
  if b.signedness = Sign.Positive then Sign.Negative else Sign.Positive

/-- BigInt::flip_sign (lines 302-305): routes through set_sign. -/
def flip_sign (b : BigInt) : BigInt := set_sign b (reverse_sign b)

/-- BigInt::grow_to (lines 142-146): when n exceeds the allocated size,
resize to n rounded up to a multiple of 8 limbs. -/
def grow_to (b : BigInt) (n : Nat) : BigInt :=
  if n > size b then { b with reg := listResize b.reg (roundUp n 8) } else b

/-- BigInt::BigInt(u64bit) (lines 19-31): sign Positive; zero keeps the
empty register, otherwise 4 * (8 / sizeof(word)) limbs are allocated and
the loop stores word j of n into limb j (the map below writes exactly
what the loop writes at each index). -/
def fromU64 (n : Nat) : BigInt :=
  let b : BigInt := set_sign { reg := [], signedness := Sign.Positive } Sign.Positive
  if n = 0 then b
  else { b with reg := (List.range (4 * 2)).map fun j =>
          if j < 2 then (n >>> (j * MP_WORD_BITS)) &&& MP_WORD_MASK else 0 }

/-- BigInt copy constructor (lines 45-60): a nonzero source is copied to
a register of round_up(sig_words, 8) limbs holding its significant limbs;
a zero source yields canonical zero with capacity 2. -/
def copyBigInt (b : BigInt) : BigInt :=
  let b_words := sig_words b
  if b_words ≠ 0 then
    set_sign { reg := b.reg.take b_words ++ List.replicate (roundUp b_words 8 - b_words) 0,
               signedness := Sign.Positive } b.signedness
  else
    set_sign { reg := List.replicate 2 0, signedness := Sign.Positive } Sign.Positive

/-- BigInt::operator- (lines 320-325): copy, then flip the sign. -/
def negBigInt (b : BigInt) : BigInt := flip_sign (copyBigInt b)

/-- BigInt::abs (lines 330-335): copy, then force sign Positive. -/
def absBigInt (b : BigInt) : BigInt := set_sign (copyBigInt b) Sign.Positive

/-- Modelled from the spec: bigint_cmp from the external mp_core kernel,
the three-way magnitude comparison of two limb sequences restricted to
their significant lengths. -/
def bigint_cmp (x : List Nat) (x_size : Nat) (y : List Nat) (y_size : Nat) : Int :=
  if natOf (x.take x_size) < natOf (y.take y_size) then -1
  else if natOf (y.take y_size) < natOf (x.take x_size) then 1
  else 0

/-- BigInt::cmp (lines 151-161): with check_signs, differing signs
short-circuit and the both-negative case negates the magnitude
comparison; otherwise magnitudes are compared directly. -/
def cmp (b n : BigInt) (check_signs : Bool) : Int :=
  if check_signs then
    if is_positive n && is_negative b then -1
    else if is_negative n && is_positive b then 1
    else if is_negative n && is_negative b then
      -(bigint_cmp b.reg (sig_words b) n.reg (sig_words n))
    else bigint_cmp b.reg (sig_words b) n.reg (sig_words n)
  else bigint_cmp b.reg (sig_words b) n.reg (sig_words n)

/-- Modelled from the spec: get_byte from get_byte.h extracts byte
byte_num of a word counting from the most significant byte. -/
def get_byte (byte_num : Nat) (w : Nat) : Nat :=
  (w >>> (8 * (WORD_BYTES - 1 - byte_num))) &&& 255

/-- BigInt::byte_at (lines 166-174): byte n (least-significant first) of
the value, 0 when the containing word is beyond capacity. -/
def byte_at (b : BigInt) (n : Nat) : Nat :=
  let word_num := n / WORD_BYTES
  let byte_num := n % WORD_BYTES
  if word_num ≥ size b then 0
  else get_byte (WORD_BYTES - byte_num - 1) (b.reg.getD word_num 0)

/-- BigInt::get_bit (lines 179-182): bit n of the value, read by shifting
the containing word. -/
def get_bit (b : BigInt) (n : Nat) : Bool :=
  ((word_at b (n / MP_WORD_BITS) >>> (n % MP_WORD_BITS)) &&& 1) != 0

/-- BigInt::get_substring (lines 187-200): lengths above 32 throw; an
8-byte window is folded most-significant byte first into a 64-bit
accumulator, shifted by offset mod 8 and masked to length bits, and the
result is truncated to 32 bits by the cast on return.  The mask is
computed as (1 << length) - 1 on the 32-bit int literal 1, so at
length = 32 the shift count wraps (undefined behavior in C++;
mainstream targets mask the shift count to the low 5 bits): the shift
count is therefore embedded as length mod 32, making the mask 0 at
length = 32 rather than 2^32 - 1. -/
def get_substring (b : BigInt) (offset length : Nat) : Except String Nat :=
  if length > 32 then
    Except.error "BigInt::get_substring: Substring size too big"
  else
    let piece := (List.range 8).foldl
      (fun acc j => (acc <<< 8) ||| byte_at b (offset / 8 + (7 - j))) 0
    let mask := (1 <<< (length % 32)) - 1
    let shift := offset % 8
    Except.ok (((piece >>> shift) &&& mask) % 2 ^ 32)

/-- BigInt::set_bit (lines 205-211): grow so that word n / MP_WORD_BITS
exists, then OR in the bit mask. -/
def set_bit (b : BigInt) (n : Nat) : BigInt :=
  let which := n / MP_WORD_BITS
  let mask := 1 <<< (n % MP_WORD_BITS)
  let b1 := if which ≥ size b then grow_to b (which + 1) else b
  { b1 with reg := b1.reg.set which (b1.reg.getD which 0 ||| mask) }

/-- BigInt::clear_bit (lines 216-222): AND out the bit mask when the
containing word exists, otherwise do nothing.  The complement of the
mask on a 32-bit word is MP_WORD_MASK XOR mask. -/
def clear_bit (b : BigInt) (n : Nat) : BigInt :=
  let which := n / MP_WORD_BITS
  let mask := 1 <<< (n % MP_WORD_BITS)
  if which < size b then
    { b with reg := b.reg.set which (b.reg.getD which 0 &&& (MP_WORD_MASK ^^^ mask)) }
  else b

/-- The top-bit scan of BigInt::bits (lines 263-264): starting from mask
= 2^(t-1), walk down while the masked bit of the top word is clear. -/
def topBitsLoop (top_word : Nat) : Nat → Nat
  | 0 => 0
  | t + 1 => if top_word &&& (1 <<< t) = 0 then topBitsLoop top_word t else t + 1

/-- BigInt::bits (lines 253-267): 0 for zero, otherwise full words times
the word size plus the scanned top-bit count of the top word. -/
def bits (b : BigInt) : Nat :=
  let words := sig_words b
  if words = 0 then 0
  else (words - 1) * MP_WORD_BITS + topBitsLoop (word_at b (words - 1)) MP_WORD_BITS

/-- BigInt::bytes (lines 245-248). -/
def bytes (b : BigInt) : Nat := (bits b + 7) / 8

/-- BigInt::mask_bits (lines 227-240): 0 clears, n at or above the bit
length is a no-op; otherwise limbs above the top word are zeroed (the
take-append writes exactly what the loop writes) and the top word is
masked. -/
def mask_bits (b : BigInt) (n : Nat) : BigInt :=
  if n = 0 then clear b
  else if n ≥ bits b then b
  else
    let top_word := n / MP_WORD_BITS
    let mask := (1 <<< (n % MP_WORD_BITS)) - 1
    let reg1 := if top_word < size b then
        b.reg.take (top_word + 1) ++ List.replicate (size b - (top_word + 1)) 0
      else b.reg
    { b with reg := reg1.set top_word (reg1.getD top_word 0 &&& mask) }

/-- BigInt::binary_encode (lines 340-345): bytes() output bytes, where
output position sig_bytes - 1 - j receives byte_at(j); equivalently
position i receives byte_at(sig_bytes - 1 - i). -/
def binary_encode (b : BigInt) : List Nat :=
  let sig_bytes := bytes b
  (List.range sig_bytes).map fun i => byte_at b (sig_bytes - 1 - i)

/-- The inner fold of BigInt::binary_decode (lines 360-361): for k from
WORD_BYTES down to 1, shift the accumulator and OR in buf[top - k]. -/
def foldBytes (buf : List Nat) (top : Nat) : Nat → Nat → Nat
  | 0, acc => acc
  | k + 1, acc => foldBytes buf top k ((acc <<< 8) ||| buf.getD (top - (k + 1)) 0)

/-- BigInt::binary_decode (lines 350-365): clear, resize to
round_up(length / WORD_BYTES + 1, 8) limbs (all zero after the clear),
then the main loop builds word j from the 4-byte chunk ending at
length - 4j and the leftover loop folds the leading length mod 4 bytes
into the next word.  The map below writes at each index exactly what the
corresponding loop iteration writes there; untouched limbs stay 0. -/
def binary_decode (b : BigInt) (buf : List Nat) (length : Nat) : BigInt :=
  let b0 := clear b
  let cap := roundUp (length / WORD_BYTES + 1) 8
  let leftover := (List.range (length % WORD_BYTES)).foldl
    (fun acc j => (acc <<< 8) ||| buf.getD j 0) 0
  { b0 with reg := (List.range cap).map fun j =>
      if j < length / WORD_BYTES then foldBytes buf (length - WORD_BYTES * j) WORD_BYTES 0
      else if j = length / WORD_BYTES then leftover
      else 0 }

/-- BigInt::binary_decode on a whole buffer (lines 370-373). -/
def binary_decode_buf (b : BigInt) (buf : List Nat) : BigInt :=
  binary_decode b buf buf.length

/-- Modelled from the spec: the value of one digit character for the
external digit decoder (only well-formed digits appear in the claims). -/
def digitVal (c : Char) : Nat :=
  if 48 ≤ c.toNat ∧ c.toNat ≤ 57 then c.toNat - 48
  else if 97 ≤ c.toNat ∧ c.toNat ≤ 102 then c.toNat - 97 + 10
  else if 65 ≤ c.toNat ∧ c.toNat ≤ 70 then c.toNat - 65 + 10
  else 0

/-- Modelled from the spec: the radix of each base tag (Binary digits
are raw bytes). -/
def radixOf : Base → Nat
  | Base.Octal => 8
  | Base.Decimal => 10
  | Base.Hexadecimal => 16
  | Base.Binary => 256

/-- Modelled from the spec: the magnitude denoted by a digit string in a
given base. -/
def decodeDigits (s : List Char) (base : Base) : Nat :=
  s.foldl (fun acc c => acc * radixOf base + digitVal c) 0

/-- Splits a natural into little-endian base 2^32 limbs (fuel-indexed so
that it reduces by computation; the fuel n always suffices). -/
def natToLimbsAux : Nat → Nat → List Nat
  | 0, _ => []
  | fuel + 1, n => if n = 0 then [] else n % 2 ^ 32 :: natToLimbsAux fuel (n / 2 ^ 32)

/-- Modelled from the spec: the external digit decoder returns a BigInt
carrying the magnitude of the digit string, sign Positive. -/
def decode (s : List Char) (base : Base) : BigInt :=
  { reg := natToLimbsAux (decodeDigits s base) (decodeDigits s base),
    signedness := Sign.Positive }

/-- BigInt string constructor (lines 65-83): an optional leading minus
marks negative, a 0x prefix selects Hexadecimal, a remaining single
leading 0 selects Octal, otherwise Decimal; the markers are stripped,
the rest goes to the digit decoder, and the sign is forced to match the
marker through set_sign. -/
def fromString (s : List Char) : BigInt :=
  let negative : Bool := decide (0 < s.length) && (s.getD 0 ' ' == '-')
  let m1 := if negative then 1 else 0
  let hexMarker : Bool :=
    decide (s.length > m1 + 2) && (s.getD m1 ' ' == '0') && (s.getD (m1 + 1) ' ' == 'x')
  let octMarker : Bool := decide (s.length > m1 + 1) && (s.getD m1 ' ' == '0')
  let markers := if hexMarker then m1 + 2 else if octMarker then m1 + 1 else m1
  let base := if hexMarker then Base.Hexadecimal
    else if octMarker then Base.Octal else Base.Decimal
  let b := decode (s.drop markers) base
  if negative then set_sign b Sign.Negative else set_sign b Sign.Positive

/-- A sign-setting operation: either set_sign with a requested sign, or
flip_sign. -/
inductive SignOp where
  | set : Sign → SignOp
  | flip : SignOp
deriving DecidableEq, Repr

/-- Apply one sign-setting operation. -/
def applySignOp (b : BigInt) : SignOp → BigInt
  | SignOp.set s => set_sign b s
  | SignOp.flip => flip_sign b

/-- Apply a sequence of sign-setting operations, left to right. -/
def applySignOps (b : BigInt) (ops : List SignOp) : BigInt :=
  ops.foldl applySignOp b

lemma set_sign_reg (b : BigInt) (s : Sign) : (set_sign b s).reg = b.reg := by
  unfold set_sign
  split <;> rfl

lemma is_zero_set_sign (b : BigInt) (s : Sign) :
    is_zero (set_sign b s) = is_zero b := by
  unfold is_zero sig_words
  rw [set_sign_reg]

lemma set_sign_signedness_of_zero (b : BigInt) (s : Sign)
    (h : is_zero (set_sign b s) = true) :
    (set_sign b s).signedness = Sign.Positive := by
  rw [is_zero_set_sign] at h
  simp [set_sign, h]

lemma applySignOp_signedness_of_zero (b : BigInt) (op : SignOp)
    (h : is_zero (applySignOp b op) = true) :
    (applySignOp b op).signedness = Sign.Positive := by
  cases op with
  | set s => exact set_sign_signedness_of_zero b s h
  | flip => exact set_sign_signedness_of_zero b (reverse_sign b) h

lemma applySignOps_cons_signedness_of_zero (ops : List SignOp) :
    ∀ (b : BigInt) (op : SignOp),
      is_zero (applySignOps b (op :: ops)) = true →
      (applySignOps b (op :: ops)).signedness = Sign.Positive := by
  induction ops with
  | nil => exact fun b op h => applySignOp_signedness_of_zero b op h
  | cons o rest ih =>
      intro b op h
      exact ih (applySignOp b op) o h

/-- Claim C2: after any nonempty sequence of sign-setting operations
(set_sign and flip_sign, plus the operators routing through them), a
value of zero magnitude carries sign Positive; in particular set_sign
with Negative on a zero value leaves the sign Positive. -/
theorem sign_ops_zero_normalization (b : BigInt) (ops : List SignOp) :
    (ops ≠ [] → is_zero (applySignOps b ops) = true →
      (applySignOps b ops).signedness = Sign.Positive) ∧
    (is_zero b = true → (set_sign b Sign.Negative).signedness = Sign.Positive) := by
  constructor
  · intro hne hz
    match ops with
    | [] => exact absurd rfl hne
    | op :: rest => exact applySignOps_cons_signedness_of_zero rest b op hz
  · intro hz
    simp [set_sign, hz]

/-- Witness for C2 at a concrete zero value and operation list. -/
theorem sign_ops_zero_normalization_witness :
    (applySignOps { reg := [0, 0], signedness := Sign.Positive }
      [SignOp.set Sign.Negative]).signedness = Sign.Positive :=
  (sign_ops_zero_normalization { reg := [0, 0], signedness := Sign.Positive }
    [SignOp.set Sign.Negative]).1 (List.cons_ne_nil _ _) (by decide)

/-- Claim C5: get_substring fails exactly when length exceeds 32 (any
length up to 32 completes with an ok result, whatever the offset), and
length 33 produces the invalid-argument error. -/
theorem get_substring_error_iff (b : BigInt) (offset length : Nat) :
    (get_substring b offset length).isOk = decide (length ≤ 32) ∧
    get_substring b offset 33 =
      Except.error "BigInt::get_substring: Substring size too big" := by
  constructor
  · by_cases h : length > 32
    · simp [get_substring, h, Except.isOk, Except.toBool, show ¬ length ≤ 32 by omega]
    · simp [get_substring, h, Except.isOk, Except.toBool, show length ≤ 32 by omega]
  · rfl

lemma getD_set_self (l : List Nat) (i v : Nat) (h : i < l.length) :
    (l.set i v).getD i 0 = v := by
  rw [List.getD_eq_getElem?_getD, List.getElem?_set_self h]
  rfl

lemma get_bit_eq_testBit (b : BigInt) (n : Nat) :
    get_bit b n = (word_at b (n / MP_WORD_BITS)).testBit (n % MP_WORD_BITS) := by
  unfold get_bit Nat.testBit
  rw [Nat.and_comm]

lemma roundUp_le (n a : Nat) : n ≤ roundUp n a := by
  unfold roundUp
  split
  · exact Nat.le_refl n
  · exact Nat.le_add_right n _

lemma listResize_length (l : List Nat) (n : Nat) :
    (listResize l n).length = n := by
  simp [listResize]
  omega

lemma grow_to_reg (b : BigInt) (n : Nat) (h : size b < n) :
    (grow_to b n).reg = listResize b.reg (roundUp n 8) := by
  show (if n > size b then { b with reg := listResize b.reg (roundUp n 8) } else b).reg = _
  rw [if_pos h]

/-- The zeta-reduced form of set_bit, for rewriting. -/
lemma set_bit_eq (b : BigInt) (n : Nat) :
    set_bit b n =
      { (if n / MP_WORD_BITS ≥ size b then grow_to b (n / MP_WORD_BITS + 1) else b) with
        reg := (if n / MP_WORD_BITS ≥ size b then grow_to b (n / MP_WORD_BITS + 1) else b).reg.set
          (n / MP_WORD_BITS)
          ((if n / MP_WORD_BITS ≥ size b then
              grow_to b (n / MP_WORD_BITS + 1) else b).reg.getD (n / MP_WORD_BITS) 0 |||
            1 <<< (n % MP_WORD_BITS)) } := rfl

/-- The zeta-reduced form of clear_bit, for rewriting. -/
lemma clear_bit_eq (b : BigInt) (n : Nat) :
    clear_bit b n =
      if n / MP_WORD_BITS < size b then
        { b with reg := (b.reg.set (n / MP_WORD_BITS) (b.reg.getD (n / MP_WORD_BITS) 0 &&& (MP_WORD_MASK ^^^ 1 <<< (n % MP_WORD_BITS)))) }
      else b := rfl

lemma size_set_bit_lt (b : BigInt) (n : Nat) :
    n / MP_WORD_BITS <
      (if n / MP_WORD_BITS ≥ size b then grow_to b (n / MP_WORD_BITS + 1) else b).reg.length := by
  by_cases h : n / MP_WORD_BITS ≥ size b
  · rw [if_pos h, grow_to_reg b _ (by omega), listResize_length]
    exact Nat.lt_of_lt_of_le (Nat.lt_succ_self _) (roundUp_le _ 8)
  · rw [if_neg h]
    unfold size at h
    omega

/-- Claim C7: setting bit n makes get_bit n true, clearing bit n makes
get_bit n false, and clear_bit of a bit whose containing limb is beyond
the current capacity leaves the value unchanged. -/
theorem bit_accessor_consistency (b : BigInt) (n : Nat) :
    get_bit (set_bit b n) n = true ∧
    get_bit (clear_bit b n) n = false ∧
    (size b ≤ n / MP_WORD_BITS → clear_bit b n = b) := by
  refine ⟨?_, ?_, ?_⟩
  · rw [get_bit_eq_testBit]
    unfold word_at
    rw [set_bit_eq]
    rw [getD_set_self _ _ _ (size_set_bit_lt b n)]
    simp [Nat.testBit_or, Nat.one_shiftLeft, Nat.testBit_two_pow_self]
  · by_cases h : n / MP_WORD_BITS < size b
    · rw [get_bit_eq_testBit]
      unfold word_at
      rw [clear_bit_eq, if_pos h]
      rw [getD_set_self _ _ _ h]
      have hm : n % MP_WORD_BITS < 32 := Nat.mod_lt n (by decide)
      have hmask : Nat.testBit 4294967295 (n % MP_WORD_BITS) = true := by
        rw [show (4294967295 : Nat) = 2 ^ 32 - 1 from rfl, Nat.testBit_two_pow_sub_one]
        simpa using hm
      simp [Nat.testBit_and, Nat.testBit_xor, Nat.one_shiftLeft, MP_WORD_MASK,
        Nat.testBit_two_pow_sub_one, Nat.testBit_two_pow_self, hm, hmask]
    · rw [clear_bit_eq, if_neg h, get_bit_eq_testBit]
      unfold word_at
      rw [List.getD_eq_default _ _ (by unfold size at h; omega)]
      exact Nat.zero_testBit _
  · intro h
    rw [clear_bit_eq, if_neg (by omega)]

/-- Witness for C7: the out-of-capacity no-op branch at a concrete value. -/
theorem bit_accessor_consistency_witness :
    clear_bit (fromU64 0) 99 = fromU64 0 :=
  (bit_accessor_consistency (fromU64 0) 99).2.2 (by decide)

/-- Claim C9 (amended): setting a bit beyond capacity grows the register
to round_up(n / W + 1, 8) limbs, the block-rounded count, which is at
least the minimal count n / W + 1 needed to contain the bit. -/
theorem set_bit_growth (b : BigInt) (n : Nat) (h : size b ≤ n / MP_WORD_BITS) :
    size (set_bit b n) = roundUp (n / MP_WORD_BITS + 1) 8 ∧
    n / MP_WORD_BITS < size (set_bit b n) := by
  have hcap : size (set_bit b n) = roundUp (n / MP_WORD_BITS + 1) 8 := by
    unfold size
    rw [set_bit_eq]
    rw [List.length_set, if_pos h, grow_to_reg b _ (by unfold size at h ⊢; omega),
      listResize_length]
  refine ⟨hcap, ?_⟩
  rw [hcap]
  exact Nat.lt_of_lt_of_le (Nat.lt_succ_self _) (roundUp_le _ 8)

/-- Witness for C9 (amended) at a concrete input. -/
theorem set_bit_growth_witness :
    size (set_bit (fromU64 0) 0) = roundUp (0 / MP_WORD_BITS + 1) 8 :=
  (set_bit_growth (fromU64 0) 0 (by decide)).1

/-- Counterexample for C9 as stated: growing for bit 0 from an empty
register yields capacity 8, not the minimal count 0 / W + 1 = 1. -/
theorem set_bit_growth_counterexample :
    ¬ size (set_bit (fromU64 0) 0) = 0 / MP_WORD_BITS + 1 := by decide

/-- The value -5, built as the negation of BigInt(5). -/
def neg5 : BigInt := negBigInt (fromU64 5)

/-- The value 3, built as BigInt(3). -/
def pos3 : BigInt := fromU64 3

/-- Claim C4: with check_signs, differing signs short-circuit (negative
this against positive other gives -1 and conversely 1), both-negative
negates the magnitude comparison and both-positive returns it directly;
without check_signs only magnitudes are compared.  Concretely -5 against
3 compares negative with check_signs and positive without. -/
theorem cmp_sign_handling (a n : BigInt) :
    (is_negative a = true → is_positive n = true → cmp a n true = -1) ∧
    (is_positive a = true → is_negative n = true → cmp a n true = 1) ∧
    (is_negative a = true → is_negative n = true →
      cmp a n true = -bigint_cmp a.reg (sig_words a) n.reg (sig_words n)) ∧
    (is_positive a = true → is_positive n = true →
      cmp a n true = bigint_cmp a.reg (sig_words a) n.reg (sig_words n)) ∧
    cmp a n false = bigint_cmp a.reg (sig_words a) n.reg (sig_words n) ∧
    cmp neg5 pos3 true = -1 ∧
    cmp neg5 pos3 false = 1 := by
  refine ⟨?_, ?_, ?_, ?_, rfl, by decide, by decide⟩ <;>
    intro h1 h2 <;>
    have ha := of_decide_eq_true h1 <;>
    have hn := of_decide_eq_true h2 <;>
    simp [cmp, is_negative, is_positive, ha, hn]

/-- Witness for C4: the differing-signs shortcut applied at -5 and 3. -/
theorem cmp_sign_handling_witness : cmp neg5 pos3 true = -1 :=
  (cmp_sign_handling neg5 pos3).1 (by decide) (by decide)

/-- Claim C3: the string constructor takes a leading minus as the sign
marker, selects Hexadecimal for a 0x prefix, Octal for a remaining single
leading 0 and Decimal otherwise, strips the markers before decoding, and
forces the sign to match the marker.  In particular -0x10 gives sign
Negative, magnitude 16 and a bit length of 5. -/
theorem string_constructor_parsing :
    (fromString ['-', '0', 'x', '1', '0']).signedness = Sign.Negative ∧
    magnitude (fromString ['-', '0', 'x', '1', '0']) = 16 ∧
    bits (fromString ['-', '0', 'x', '1', '0']) = 5 ∧
    (fromString ['0', 'x', '1', '0']).signedness = Sign.Positive ∧
    magnitude (fromString ['0', 'x', '1', '0']) = 16 ∧
    magnitude (fromString ['0', '1', '0']) = 8 ∧
    magnitude (fromString ['1', '0']) = 10 ∧
    (fromString ['-', '1', '0']).signedness = Sign.Negative ∧
    magnitude (fromString ['-', '1', '0']) = 10 ∧
    magnitude (fromString ['-', '0', '7']) = 7 ∧
    (fromString ['-', '0', '7']).signedness = Sign.Negative := by decide

lemma natOf_replicate_zero (n : Nat) : natOf (List.replicate n 0) = 0 := by
  induction n with
  | zero => rfl
  | succ n ih => simp [List.replicate_succ, natOf, ih]

lemma sigWordsFrom_getD_eq_zero (l : List Nat) :
    ∀ s i, sigWordsFrom l s ≤ i → i < s → l.getD i 0 = 0 := by
  intro s
  induction s with
  | zero => omega
  | succ s ih =>
      intro i h1 h2
      by_cases h : l.getD s 0 = 0
      · simp only [sigWordsFrom, if_pos h] at h1
        rcases Nat.lt_or_ge i s with hlt | hge
        · exact ih i h1 hlt
        · have : i = s := by omega
          rwa [this]
      · simp only [sigWordsFrom, if_neg h] at h1
        omega

lemma reg_eq_replicate_of_is_zero (b : BigInt) (h : is_zero b = true) :
    b.reg = List.replicate b.reg.length 0 := by
  rw [List.eq_replicate_iff]
  refine ⟨rfl, fun x hx => ?_⟩
  obtain ⟨i, hi, hval⟩ := List.mem_iff_getElem.mp hx
  have h0 : sigWordsFrom b.reg b.reg.length = 0 := by
    simpa [is_zero, sig_words] using h
  have hz := sigWordsFrom_getD_eq_zero b.reg b.reg.length i (by omega) hi
  rw [List.getD_eq_getElem?_getD, List.getElem?_eq_getElem hi] at hz
  rw [← hval]
  exact hz

/-- Claim C8: mask_bits(0) yields canonical zero (zero magnitude, sign
Positive); mask_bits(n) for n at or above bits() leaves the value
unchanged, so mask_bits(bits()) is an identity (on a zero value this
uses the zero-normalization representation invariant); and mask_bits(4)
on 255 yields 15. -/
theorem mask_bits_behavior (b : BigInt) :
    (magnitude (mask_bits b 0) = 0 ∧ (mask_bits b 0).signedness = Sign.Positive) ∧
    (∀ m, bits b ≤ m → m ≠ 0 → mask_bits b m = b) ∧
    (is_zero b = true → b.signedness = Sign.Positive → mask_bits b (bits b) = b) ∧
    magnitude (mask_bits (fromU64 255) 4) = 15 := by
  have hclear : mask_bits b 0 = clear b := rfl
  refine ⟨⟨?_, ?_⟩, ?_, ?_, by decide⟩
  · rw [hclear]
    exact natOf_replicate_zero _
  · rw [hclear]
    rfl
  · intro m h1 h2
    unfold mask_bits
    rw [if_neg h2, if_pos (by omega)]
  · intro hz hs
    have hb0 : bits b = 0 := by
      unfold bits
      have h0 : sig_words b = 0 := by simpa [is_zero] using hz
      simp [h0]
    rw [hb0, hclear]
    unfold clear
    have hreg := reg_eq_replicate_of_is_zero b hz
    cases b with
    | mk reg s =>
        simp only at hreg hs
        rw [← hreg, hs]

/-- Witness for C8: the identity branch applied at the value 255. -/
theorem mask_bits_behavior_witness :
    mask_bits (fromU64 255) (bits (fromU64 255)) = fromU64 255 :=
  (mask_bits_behavior (fromU64 255)).2.1 (bits (fromU64 255)) (Nat.le_refl _) (by decide)

lemma byte_at_eq (b : BigInt) (n : Nat) :
    byte_at b n =
      if n / WORD_BYTES ≥ size b then 0
      else get_byte (WORD_BYTES - n % WORD_BYTES - 1) (b.reg.getD (n / WORD_BYTES) 0) := rfl

lemma byte_at_lt_256 (b : BigInt) (n : Nat) : byte_at b n < 256 := by
  rw [byte_at_eq]
  split
  · norm_num
  · exact Nat.lt_succ_of_le Nat.and_le_right

/-- Claim C6 (code bug at length 32): the mask of get_substring comes
from the 32-bit int literal 1, so at length = 32 the shift count wraps
and the mask is 0: on the value 255 the call get_substring(0, 32)
returns 0, while the low-32-bit extraction of the claimed 8-byte window
is 255.  The guard admits length = 32 and the function returns a 32-bit
value, so the claimed masked extraction is the evident intent, and the
int-typed mask computation the slip.  For lengths up to 31 the code
does return the claimed window value, e.g. get_substring(0, 8) on 255
returns 255. -/
theorem get_substring_length32_bug :
    get_substring (fromU64 255) 0 32 = Except.ok 0 ∧
    ((∑ k ∈ Finset.range 8, byte_at (fromU64 255) (0 / 8 + k) * 2 ^ (8 * k)) >>>
      (0 % 8)) &&& (2 ^ 32 - 1) = 255 ∧
    get_substring (fromU64 255) 0 8 = Except.ok 255 := by
  refine ⟨rfl, by decide, rfl⟩

lemma natOf_cons (w : Nat) (ws : List Nat) :
    natOf (w :: ws) = w + 2 ^ 32 * natOf ws := rfl

lemma natOf_append (l1 l2 : List Nat) :
    natOf (l1 ++ l2) = natOf l1 + 2 ^ (32 * l1.length) * natOf l2 := by
  induction l1 with
  | nil => simp [natOf]
  | cons w ws ih =>
      simp only [List.cons_append, natOf_cons, ih, List.length_cons]
      rw [show 32 * (ws.length + 1) = 32 * ws.length + 32 by ring, pow_add]
      ring

lemma natOf_lt_two_pow (l : List Nat) (hw : ∀ w ∈ l, w < 2 ^ 32) :
    natOf l < 2 ^ (32 * l.length) := by
  induction l with
  | nil => simp [natOf]
  | cons w ws ih =>
      have hwlt := hw w (List.mem_cons_self _ _)
      have hih := ih fun x hx => hw x (List.mem_cons_of_mem _ hx)
      simp only [natOf_cons, List.length_cons]
      rw [show 32 * (ws.length + 1) = 32 + 32 * ws.length by ring, pow_add]
      have h1 : w + 2 ^ 32 * natOf ws < 2 ^ 32 * (natOf ws + 1) := by
        have : 2 ^ 32 * (natOf ws + 1) = 2 ^ 32 * natOf ws + 2 ^ 32 := by ring
        omega
      have h2 : 2 ^ 32 * (natOf ws + 1) ≤ 2 ^ 32 * 2 ^ (32 * ws.length) :=
        Nat.mul_le_mul_left _ (by omega)
      omega

lemma natOf_getD (l : List Nat) (hw : ∀ w ∈ l, w < 2 ^ 32) (i : Nat) :
    l.getD i 0 = natOf l / 2 ^ (32 * i) % 2 ^ 32 := by
  induction l generalizing i with
  | nil => simp [natOf, List.getD]
  | cons w ws ih =>
      cases i with
      | zero =>
          simp only [List.getD_cons_zero, Nat.mul_zero, pow_zero, Nat.div_one, natOf_cons]
          rw [Nat.add_mul_mod_self_left]
          exact (Nat.mod_eq_of_lt (hw w (List.mem_cons_self _ _))).symm
      | succ i =>
          have hdiv : (w + 2 ^ 32 * natOf ws) / 2 ^ 32 = natOf ws := by
            rw [Nat.add_mul_div_left _ _ (Nat.pos_pow_of_pos 32 (by norm_num)),
              Nat.div_eq_of_lt (hw w (List.mem_cons_self _ _))]
            omega
          rw [List.getD_cons_succ, ih (fun x hx => hw x (List.mem_cons_of_mem _ hx)) i,
            natOf_cons, show 32 * (i + 1) = 32 + 32 * i by ring, pow_add,
            ← Nat.div_div_eq_div_mul, hdiv]

lemma digit_sum (B x : Nat) :
    ∀ k, (∑ j ∈ Finset.range k, x / B ^ j % B * B ^ j) = x % B ^ k := by
  intro k
  induction k with
  | zero => simp [Nat.mod_one]
  | succ k ih =>
      rw [Finset.sum_range_succ, ih, pow_succ, Nat.mod_mul]
      ring

lemma sigWordsFrom_le (l : List Nat) : ∀ s, sigWordsFrom l s ≤ s := by
  intro s
  induction s with
  | zero => exact Nat.le_refl 0
  | succ s ih =>
      by_cases h : l.getD s 0 = 0
      · simp only [sigWordsFrom, if_pos h]
        omega
      · simp only [sigWordsFrom, if_neg h]
        exact Nat.le_refl _

lemma natOf_take_succ (l : List Nat) (s : Nat) (h : s < l.length) :
    natOf (l.take (s + 1)) = natOf (l.take s) + l.getD s 0 * 2 ^ (32 * s) := by
  rw [List.take_succ, List.getElem?_eq_getElem h]
  rw [natOf_append]
  simp only [Option.toList_some, natOf_cons, natOf, List.length_take,
    Nat.min_eq_left (Nat.le_of_lt h)]
  rw [List.getD_eq_getElem?_getD, List.getElem?_eq_getElem h]
  simp [Option.getD_some]
  ring

lemma natOf_take_sigWordsFrom (l : List Nat) :
    ∀ s, s ≤ l.length → natOf (l.take (sigWordsFrom l s)) = natOf (l.take s) := by
  intro s
  induction s with
  | zero => intro _; rfl
  | succ s ih =>
      intro h
      by_cases hz : l.getD s 0 = 0
      · simp only [sigWordsFrom, if_pos hz]
        rw [ih (by omega), natOf_take_succ l s (by omega), hz]
        simp
      · simp only [sigWordsFrom, if_neg hz]

lemma magnitude_eq_take_sig (b : BigInt) :
    magnitude b = natOf (b.reg.take (sig_words b)) := by
  unfold magnitude sig_words
  rw [natOf_take_sigWordsFrom b.reg b.reg.length (Nat.le_refl _), List.take_length]

lemma lt_two_pow_topBitsLoop (w : Nat) :
    ∀ t, w < 2 ^ t → w < 2 ^ topBitsLoop w t := by
  intro t
  induction t with
  | zero => exact fun h => h
  | succ t ih =>
      intro h
      by_cases hz : w &&& (1 <<< t) = 0
      · simp only [topBitsLoop, if_pos hz]
        apply ih
        have htb : w.testBit t = false := by
          rw [Nat.one_shiftLeft, Nat.and_two_pow] at hz
          cases hb : w.testBit t
          · rfl
          · rw [hb] at hz
            simp at hz
        apply Nat.lt_pow_two_of_testBit
        intro i hi
        rcases Nat.eq_or_lt_of_le hi with heq | hlt
        · rwa [← heq]
        · exact Nat.testBit_lt_two_pow
            (Nat.lt_of_lt_of_le h (Nat.pow_le_pow_right (by norm_num) hlt))
      · simp only [topBitsLoop, if_neg hz]
        exact h

lemma getD_lt_of_wf (l : List Nat) (hw : ∀ w ∈ l, w < 2 ^ 32) (i : Nat)
    (h : i < l.length) : l.getD i 0 < 2 ^ 32 := by
  rw [List.getD_eq_getElem?_getD, List.getElem?_eq_getElem h]
  exact hw _ (List.getElem_mem h)

lemma magnitude_lt_two_pow_bits (b : BigInt) (hw : ∀ w ∈ b.reg, w < 2 ^ 32) :
    magnitude b < 2 ^ bits b := by
  rw [magnitude_eq_take_sig]
  unfold bits
  by_cases h0 : sig_words b = 0
  · rw [h0]
    simp [natOf]
  · rw [if_neg h0]
    have hswle : sig_words b ≤ b.reg.length := sigWordsFrom_le _ _
    have hs1 : sig_words b - 1 < b.reg.length := by omega
    have hsplit : natOf (b.reg.take (sig_words b)) =
        natOf (b.reg.take (sig_words b - 1)) +
          b.reg.getD (sig_words b - 1) 0 * 2 ^ (32 * (sig_words b - 1)) := by
      have hstep := natOf_take_succ b.reg (sig_words b - 1) hs1
      rwa [show sig_words b - 1 + 1 = sig_words b by omega] at hstep
    have hlow : natOf (b.reg.take (sig_words b - 1)) < 2 ^ (32 * (sig_words b - 1)) := by
      have hl := natOf_lt_two_pow (b.reg.take (sig_words b - 1))
        fun x hx => hw x (List.take_subset _ _ hx)
      rwa [List.length_take, Nat.min_eq_left (by omega)] at hl
    have htopw : b.reg.getD (sig_words b - 1) 0 < 2 ^ 32 := getD_lt_of_wf _ hw _ hs1
    have htop : b.reg.getD (sig_words b - 1) 0 <
        2 ^ topBitsLoop (word_at b (sig_words b - 1)) MP_WORD_BITS :=
      lt_two_pow_topBitsLoop _ 32 htopw
    rw [hsplit, show (sig_words b - 1) * MP_WORD_BITS = 32 * (sig_words b - 1) by
      unfold MP_WORD_BITS; ring, pow_add]
    set A := (2 : Nat) ^ (32 * (sig_words b - 1)) with hA
    set g := b.reg.getD (sig_words b - 1) 0 with hg
    set T := (2 : Nat) ^ topBitsLoop (word_at b (sig_words b - 1)) MP_WORD_BITS with hT
    have h1 : natOf (b.reg.take (sig_words b - 1)) + g * A < (g + 1) * A := by
      have : (g + 1) * A = g * A + A := by ring
      omega
    have h2 : (g + 1) * A ≤ T * A := Nat.mul_le_mul_right A (by omega)
    have h3 : T * A = A * T := Nat.mul_comm T A
    omega

lemma magnitude_lt_two_pow_bytes (b : BigInt) (hw : ∀ w ∈ b.reg, w < 2 ^ 32) :
    magnitude b < 2 ^ (8 * bytes b) := by
  have hb := magnitude_lt_two_pow_bits b hw
  have hle : bits b ≤ 8 * bytes b := by
    unfold bytes
    have hdm := Nat.div_add_mod (bits b + 7) 8
    have hlt : (bits b + 7) % 8 < 8 := Nat.mod_lt _ (by norm_num)
    omega
  exact Nat.lt_of_lt_of_le hb (Nat.pow_le_pow_right (by norm_num) hle)

lemma byte_at_eq_getD (b : BigInt) (n : Nat) :
    byte_at b n = (b.reg.getD (n / 4) 0 >>> (8 * (n % 4))) &&& 255 := by
  rw [byte_at_eq]
  by_cases h : n / WORD_BYTES ≥ size b
  · rw [if_pos h]
    unfold WORD_BYTES size at h
    rw [List.getD_eq_default _ _ (by omega)]
    simp
  · rw [if_neg h]
    unfold get_byte WORD_BYTES
    rw [show 4 - 1 - (4 - n % 4 - 1) = n % 4 by omega]

lemma byte_at_digit (b : BigInt) (hw : ∀ w ∈ b.reg, w < 2 ^ 32) (n : Nat) :
    byte_at b n = magnitude b / 2 ^ (8 * n) % 256 := by
  rw [byte_at_eq_getD, natOf_getD b.reg hw (n / 4)]
  rw [Nat.shiftRight_eq_div_pow, show (255 : Nat) = 2 ^ 8 - 1 from rfl,
    Nat.and_pow_two_sub_one_eq_mod]
  rw [show (2 : Nat) ^ 32 = 2 ^ (8 * (n % 4)) * 2 ^ (32 - 8 * (n % 4)) by
    rw [← pow_add]; congr 1; omega]
  rw [Nat.mod_mul_right_div_self]
  rw [Nat.mod_mod_of_dvd _ (pow_dvd_pow 2 (by omega : 8 ≤ 32 - 8 * (n % 4)))]
  rw [Nat.div_div_eq_div_mul, ← pow_add,
    show 32 * (n / 4) + 8 * (n % 4) = 8 * n by have := Nat.div_add_mod n 4; omega]
  rfl

lemma testBit_div_pow (x m i : Nat) : (x / 2 ^ m).testBit i = x.testBit (m + i) := by
  rw [Nat.testBit_to_div_mod, Nat.testBit_to_div_mod, Nat.div_div_eq_div_mul, ← pow_add]

lemma get_bit_digit (b : BigInt) (hw : ∀ w ∈ b.reg, w < 2 ^ 32) (n : Nat) :
    get_bit b n = (magnitude b).testBit n := by
  rw [get_bit_eq_testBit]
  unfold word_at
  simp only [MP_WORD_BITS]
  rw [natOf_getD b.reg hw (n / 32)]
  rw [Nat.testBit_mod_two_pow, testBit_div_pow]
  have hm : n % 32 < 32 := Nat.mod_lt _ (by norm_num)
  rw [show 32 * (n / 32) + n % 32 = n by have := Nat.div_add_mod n 32; omega]
  simp [hm]
  rfl

/-- Claim C10: the limbs between sig_words and the allocated capacity
are always zero (sig_words is recomputed by trimming, so unused capacity
is never stale), and consequently byte_at and get_bit, which bound their
reads by capacity, return exactly the bytes and bits of the magnitude. -/
theorem unused_capacity_and_accessors (b : BigInt) (hw : ∀ w ∈ b.reg, w < 2 ^ 32) :
    (∀ i, sig_words b ≤ i → i < size b → b.reg.getD i 0 = 0) ∧
    (∀ n, byte_at b n = magnitude b / 2 ^ (8 * n) % 256) ∧
    (∀ n, get_bit b n = (magnitude b).testBit n) :=
  ⟨fun i h1 h2 => sigWordsFrom_getD_eq_zero b.reg b.reg.length i h1 h2,
   fun n => byte_at_digit b hw n,
   fun n => get_bit_digit b hw n⟩

/-- Witness for C10 at the value 255. -/
theorem unused_capacity_and_accessors_witness :
    byte_at (fromU64 255) 1 = magnitude (fromU64 255) / 2 ^ (8 * 1) % 256 :=
  (unused_capacity_and_accessors (fromU64 255) (by decide)).2.1 1

lemma binary_encode_length (b : BigInt) : (binary_encode b).length = bytes b := by
  simp [binary_encode]

lemma binary_encode_getD (b : BigInt) (i : Nat) :
    (binary_encode b).getD i 0 =
      if i < bytes b then byte_at b (bytes b - 1 - i) else 0 := by
  unfold binary_encode
  rw [List.getD_eq_getElem?_getD, List.getElem?_map]
  by_cases h : i < bytes b
  · rw [List.getElem?_range h]
    simp [h]
  · rw [List.getElem?_eq_none (by simpa [List.length_range] using Nat.not_lt.mp h)]
    simp [h]

lemma encode_getD_lt (b : BigInt) (i : Nat) : (binary_encode b).getD i 0 < 256 := by
  rw [binary_encode_getD]
  split
  · exact byte_at_lt_256 _ _
  · norm_num

lemma shift_or_lt (acc c : Nat) (h : c < 2 ^ 8) :
    (acc <<< 8) ||| c = 2 ^ 8 * acc + c := by
  rw [Nat.shiftLeft_eq, Nat.mul_comm]
  exact (Nat.mul_add_lt_is_or h acc).symm

lemma foldBytes_four (buf : List Nat) (top : Nat) :
    foldBytes buf top 4 0 =
      ((((0 <<< 8 ||| buf.getD (top - 4) 0) <<< 8 ||| buf.getD (top - 3) 0) <<< 8 |||
        buf.getD (top - 2) 0) <<< 8 ||| buf.getD (top - 1) 0) := rfl

lemma foldBytes_four_val (buf : List Nat) (top : Nat)
    (hb : ∀ i, buf.getD i 0 < 256) :
    foldBytes buf top 4 0 =
      buf.getD (top - 1) 0 + 2 ^ 8 * buf.getD (top - 2) 0 +
        2 ^ 16 * buf.getD (top - 3) 0 + 2 ^ 24 * buf.getD (top - 4) 0 := by
  rw [foldBytes_four, shift_or_lt _ _ (hb _), shift_or_lt _ _ (hb _),
    shift_or_lt _ _ (hb _), shift_or_lt _ _ (hb _)]
  ring

lemma four_digit_recomp (X : Nat) :
    X % 2 ^ 32 = X % 256 + 2 ^ 8 * (X / 2 ^ 8 % 256) +
      2 ^ 16 * (X / 2 ^ 16 % 256) + 2 ^ 24 * (X / 2 ^ 24 % 256) := by
  have hds := digit_sum 256 X 4
  rw [Finset.sum_range_succ, Finset.sum_range_succ, Finset.sum_range_succ,
    Finset.sum_range_succ, Finset.sum_range_zero] at hds
  norm_num at hds ⊢
  omega

lemma decode_main_word (b : BigInt) (hw : ∀ w ∈ b.reg, w < 2 ^ 32) (j : Nat)
    (hj : j < bytes b / 4) :
    foldBytes (binary_encode b) (bytes b - 4 * j) 4 0 =
      magnitude b / 2 ^ (32 * j) % 2 ^ 32 := by
  have hdm := Nat.div_mul_le_self (bytes b) 4
  have hlen : 4 * (j + 1) ≤ bytes b := by omega
  rw [foldBytes_four_val _ _ (fun i => encode_getD_lt b i)]
  have hidx : ∀ k, 1 ≤ k → k ≤ 4 →
      (binary_encode b).getD (bytes b - 4 * j - k) 0 = byte_at b (4 * j + (k - 1)) := by
    intro k h1 h4
    rw [binary_encode_getD, if_pos (by omega)]
    congr 1
    omega
  rw [show bytes b - 4 * j - 1 = bytes b - 4 * j - 1 from rfl]
  rw [hidx 1 (by norm_num) (by norm_num), hidx 2 (by norm_num) (by norm_num),
    hidx 3 (by norm_num) (by norm_num), hidx 4 (by norm_num) (by norm_num)]
  rw [byte_at_digit b hw _, byte_at_digit b hw _, byte_at_digit b hw _,
    byte_at_digit b hw _]
  rw [show 8 * (4 * j + (1 - 1)) = 32 * j by ring,
    show 8 * (4 * j + (2 - 1)) = 32 * j + 8 by ring,
    show 8 * (4 * j + (3 - 1)) = 32 * j + 16 by ring,
    show 8 * (4 * j + (4 - 1)) = 32 * j + 24 by ring]
  rw [pow_add, ← Nat.div_div_eq_div_mul, pow_add (a := (2 : Nat)) (m := 32 * j) (n := 16),
    ← Nat.div_div_eq_div_mul, pow_add (a := (2 : Nat)) (m := 32 * j) (n := 24),
    ← Nat.div_div_eq_div_mul]
  have hrec := four_digit_recomp (magnitude b / 2 ^ (32 * j))
  norm_num at hrec ⊢
  omega

lemma foldl_be (g : Nat → Nat) (hg : ∀ j, g j < 256) :
    ∀ m, (List.range m).foldl (fun acc j => (acc <<< 8) ||| g j) 0 =
      ∑ r ∈ Finset.range m, g (m - 1 - r) * 2 ^ (8 * r) := by
  intro m
  induction m with
  | zero => simp
  | succ m ih =>
      rw [List.range_succ, List.foldl_append]
      simp only [List.foldl_cons, List.foldl_nil]
      rw [ih, shift_or_lt _ _ (by simpa using hg m)]
      rw [Finset.sum_range_succ']
      have hcongr : ∀ r ∈ Finset.range m,
          g (m + 1 - 1 - (r + 1)) * 2 ^ (8 * (r + 1)) =
            g (m - 1 - r) * 2 ^ (8 * r) * 2 ^ 8 := by
        intro r hr
        rw [show m + 1 - 1 - (r + 1) = m - 1 - r by omega,
          show 8 * (r + 1) = 8 * r + 8 by ring, pow_add]
        ring
      rw [Finset.sum_congr rfl hcongr, ← Finset.sum_mul]
      simp
      ring

lemma decode_leftover (b : BigInt) (hw : ∀ w ∈ b.reg, w < 2 ^ 32) :
    (List.range (bytes b % 4)).foldl
        (fun acc j => (acc <<< 8) ||| (binary_encode b).getD j 0) 0 =
      magnitude b / 2 ^ (32 * (bytes b / 4)) := by
  have hLm := Nat.div_add_mod (bytes b) 4
  rw [foldl_be _ (fun j => encode_getD_lt b j) (bytes b % 4)]
  have hterm : ∀ r ∈ Finset.range (bytes b % 4),
      (binary_encode b).getD (bytes b % 4 - 1 - r) 0 * 2 ^ (8 * r) =
        magnitude b / 2 ^ (32 * (bytes b / 4)) / (2 ^ 8) ^ r % 2 ^ 8 * (2 ^ 8) ^ r := by
    intro r hr
    have hrm : r < bytes b % 4 := Finset.mem_range.mp hr
    have hm4 : bytes b % 4 < 4 := Nat.mod_lt _ (by norm_num)
    rw [binary_encode_getD, if_pos (by omega)]
    rw [show bytes b - 1 - (bytes b % 4 - 1 - r) = 4 * (bytes b / 4) + r by omega]
    rw [byte_at_digit b hw _]
    rw [show 8 * (4 * (bytes b / 4) + r) = 32 * (bytes b / 4) + 8 * r by ring, pow_add,
      ← Nat.div_div_eq_div_mul]
    rw [show ((2 : Nat) ^ 8) ^ r = 2 ^ (8 * r) by rw [← pow_mul]]
    norm_num
  rw [Finset.sum_congr rfl hterm, digit_sum]
  apply Nat.mod_eq_of_lt
  rw [show ((2 : Nat) ^ 8) ^ (bytes b % 4) = 2 ^ (8 * (bytes b % 4)) by rw [← pow_mul]]
  rw [Nat.div_lt_iff_lt_mul (Nat.pos_pow_of_pos _ (by norm_num)), ← pow_add]
  rw [show 8 * (bytes b % 4) + 32 * (bytes b / 4) = 8 * bytes b by omega]
  exact magnitude_lt_two_pow_bytes b hw

lemma natOf_map_range (f : Nat → Nat) (n : Nat) :
    natOf ((List.range n).map f) = ∑ j ∈ Finset.range n, f j * 2 ^ (32 * j) := by
  induction n with
  | zero => simp [natOf]
  | succ n ih =>
      rw [List.range_succ, List.map_append, natOf_append, ih, Finset.sum_range_succ]
      simp [natOf]
      ring

/-- The register written by binary_decode, in closed form. -/
lemma binary_decode_reg (c : BigInt) (buf : List Nat) (n : Nat) :
    (binary_decode c buf n).reg =
      (List.range (roundUp (n / WORD_BYTES + 1) 8)).map fun j =>
        if j < n / WORD_BYTES then foldBytes buf (n - WORD_BYTES * j) WORD_BYTES 0
        else if j = n / WORD_BYTES then
          (List.range (n % WORD_BYTES)).foldl (fun acc i => (acc <<< 8) ||| buf.getD i 0) 0
        else 0 := rfl

/-- Claim C1: decoding the bytes produced by binary_encode restores the
magnitude exactly: binary_encode writes bytes() bytes most-significant
first with no sign information, and binary_decode (applied to any
receiver) reconstructs the same magnitude from them. -/
theorem binary_round_trip (b c : BigInt) (hw : ∀ w ∈ b.reg, w < 2 ^ 32) :
    magnitude (binary_decode_buf c (binary_encode b)) = magnitude b := by
  unfold binary_decode_buf
  rw [show magnitude (binary_decode c (binary_encode b) (binary_encode b).length) =
      natOf ((binary_decode c (binary_encode b) (binary_encode b).length).reg) from rfl]
  rw [binary_decode_reg, binary_encode_length, natOf_map_range]
  simp only [WORD_BYTES]
  have hcap : bytes b / 4 + 1 ≤ roundUp (bytes b / 4 + 1) 8 := roundUp_le _ 8
  rw [← Finset.sum_subset (Finset.range_subset.mpr hcap) (by
    intro x _ hx
    rw [Finset.mem_range] at hx
    rw [if_neg (by omega), if_neg (by omega)]
    ring)]
  rw [Finset.sum_range_succ]
  have hmain : ∀ j ∈ Finset.range (bytes b / 4),
      (if j < bytes b / 4 then foldBytes (binary_encode b) (bytes b - 4 * j) 4 0
        else if j = bytes b / 4 then
          (List.range (bytes b % 4)).foldl
            (fun acc i => (acc <<< 8) ||| (binary_encode b).getD i 0) 0
        else 0) * 2 ^ (32 * j) =
      magnitude b / 2 ^ (32 * j) % 2 ^ 32 * 2 ^ (32 * j) := by
    intro j hj
    have hjlt := Finset.mem_range.mp hj
    rw [if_pos hjlt, decode_main_word b hw j hjlt]
  rw [Finset.sum_congr rfl hmain]
  rw [if_neg (Nat.lt_irrefl _), if_pos rfl, decode_leftover b hw]
  have hlow : (∑ j ∈ Finset.range (bytes b / 4),
      magnitude b / 2 ^ (32 * j) % 2 ^ 32 * 2 ^ (32 * j)) =
        magnitude b % 2 ^ (32 * (bytes b / 4)) := by
    have hds := digit_sum (2 ^ 32) (magnitude b) (bytes b / 4)
    rw [show ((2 : Nat) ^ 32) ^ (bytes b / 4) = 2 ^ (32 * (bytes b / 4)) by
      rw [← pow_mul]] at hds
    rw [← hds]
    apply Finset.sum_congr rfl
    intro j _
    rw [show ((2 : Nat) ^ 32) ^ j = 2 ^ (32 * j) by rw [← pow_mul]]
  rw [hlow]
  exact Nat.mod_add_div' (magnitude b) (2 ^ (32 * (bytes b / 4)))

/-- Witness for C1 at a concrete value and receiver. -/
theorem binary_round_trip_witness :
    magnitude (binary_decode_buf (fromU64 7) (binary_encode (fromU64 123456789))) =
      magnitude (fromU64 123456789) :=
  binary_round_trip (fromU64 123456789) (fromU64 7) (by decide)

end Botan
